import Mathlib

/-!
Verification of the Pontus Execution Layer route-optimization and execution engine.

The definitions below are shallow embeddings of the Python source in
`app/services/` (graph builder, path finder, decision layer, segment
executors, settlement simulator and the advanced execution orchestrator).
Conventions used throughout:

* Python `float` arithmetic is embedded as exact rational arithmetic (`ℚ`);
  all constants involved (`0.0001`, `0.92`, ...) are exact rationals.
* A Python `dict.get(key, default)` read is embedded as an `Option` field
  together with `Option.getD default`.
* Fallible code (a `raise` that is caught by the enclosing `try`/`except`
  which converts it into a FAILED segment result) is embedded as the
  corresponding FAILED result value; the executors are total functions,
  mirroring the source contract that no exception escapes `execute`.
* Randomness (wallet addresses, transaction hashes, block counts, sleeps)
  does not influence any amount, fee, status or node computation treated
  here; random values that do appear (fresh wallet addresses) are passed
  as explicit parameters.
-/

namespace Pontus

/-- Segment types, from `app/schemas/route_segment.py` (`SegmentType`). -/
inductive SegmentType
  | fx
  | crypto
  | gas
  | bridge
  | on_ramp
  | off_ramp
  | bank_rail
  | liquidity
deriving DecidableEq

/-- The `cost` dict of a route segment (`RouteSegment.cost` in
`app/schemas/route_segment.py`).  Each key may be absent; executors read the
keys with `cost.get(key, default)`, embedded as `Option.getD`. -/
structure SegmentCost where
  fee_percent : Option ℚ := none
  fixed_fee : Option ℚ := none
  effective_fx_rate : Option ℚ := none
deriving DecidableEq

/-- The `latency` dict of a route segment (`min_minutes` / `max_minutes`). -/
structure SegmentLatency where
  min_minutes : Option ℚ := none
  max_minutes : Option ℚ := none
deriving DecidableEq

/-- A route segment, from `app/schemas/route_segment.py` (`RouteSegment`).
Fields not used by any routing or execution computation (`id`,
`constraints`, `timestamp`) are omitted. -/
structure RouteSegment where
  segment_type : SegmentType
  from_asset : String
  to_asset : String
  from_network : Option String := none
  to_network : Option String := none
  cost : SegmentCost := {}
  latency : SegmentLatency := {}
  reliability_score : ℚ := 1
  provider : Option String := none
deriving DecidableEq

/-- Node identity, from `RouteGraph.add_segment` in
`app/services/graph_builder.py`: FX and BANK_RAIL segments use the asset
alone; every other type uses `asset@network` when the network is present,
else the asset alone. -/
def nodeId (ty : SegmentType) (asset : String) (network : Option String) : String :=
  if ty = SegmentType.fx ∨ ty = SegmentType.bank_rail then asset
  else
    match network with
    | some n => asset ++ "@" ++ n
    | none => asset

/-- The `from_node` computed by `RouteGraph.add_segment` for a segment. -/
def fromNode (s : RouteSegment) : String :=
  nodeId s.segment_type s.from_asset s.from_network

/-- The `to_node` computed by `RouteGraph.add_segment` for a segment. -/
def toNode (s : RouteSegment) : String :=
  nodeId s.segment_type s.to_asset s.to_network

/-- The node set of the graph built from a segment list
(`RouteGraph.nodes` after `GraphBuilder.build_graph`): `add_segment` inserts
`from_node` and `to_node` for each segment.  Membership in this list is
membership in the Python set. -/
def graphNodes (segments : List RouteSegment) : List String :=
  segments.flatMap (fun s => [fromNode s, toNode s])

/-- C2: for every segment added to the graph, the inserted endpoint node
identifiers are: for FX and BANK_RAIL segments the asset alone (networks
ignored), and for every other segment type `asset@network` when the
corresponding network field is present, else the asset alone. -/
theorem c2_node_identity (segs : List RouteSegment) (s : RouteSegment) :
    graphNodes (segs ++ [s]) = graphNodes segs ++ [fromNode s, toNode s]
    ∧ ((s.segment_type = SegmentType.fx ∨ s.segment_type = SegmentType.bank_rail) →
        fromNode s = s.from_asset ∧ toNode s = s.to_asset)
    ∧ ((s.segment_type ≠ SegmentType.fx ∧ s.segment_type ≠ SegmentType.bank_rail) →
        fromNode s = (match s.from_network with
          | some n => s.from_asset ++ "@" ++ n
          | none => s.from_asset)
        ∧ toNode s = (match s.to_network with
          | some n => s.to_asset ++ "@" ++ n
          | none => s.to_asset)) := by
  refine ⟨by simp [graphNodes], fun h => ?_, fun h => ?_⟩
  · constructor <;> simp [fromNode, toNode, nodeId, h]
  · constructor <;> simp [fromNode, toNode, nodeId, h.1, h.2]

/-- Example FX segment (network fields deliberately set, to show they are
ignored by node identity). -/
def exFxSeg : RouteSegment :=
  { segment_type := SegmentType.fx, from_asset := "USD", to_asset := "EUR",
    from_network := some "swift", to_network := some "sepa" }

/-- Example CRYPTO segment with networks present. -/
def exCryptoSeg : RouteSegment :=
  { segment_type := SegmentType.crypto, from_asset := "USDC", to_asset := "ETH",
    from_network := some "ethereum", to_network := some "ethereum" }

/-- Witness for C2 at concrete segments. -/
theorem c2_node_identity_witness :
    fromNode exFxSeg = "USD" ∧ toNode exFxSeg = "EUR"
    ∧ fromNode exCryptoSeg = "USDC@ethereum" ∧ toNode exCryptoSeg = "ETH@ethereum" := by
  refine ⟨((c2_node_identity [] exFxSeg).2.1 (Or.inl rfl)).1,
    ((c2_node_identity [] exFxSeg).2.1 (Or.inl rfl)).2,
    (((c2_node_identity [] exCryptoSeg).2.2 ⟨by decide, by decide⟩).1).trans (by decide),
    (((c2_node_identity [] exCryptoSeg).2.2 ⟨by decide, by decide⟩).2).trans (by decide)⟩

/-- Python `s.startswith(pre)`. -/
def pyStartswith (s pre : String) : Bool :=
  pre.data.isPrefixOf s.data

/-- The destination test of the inner `dfs` of `RouteGraph.find_paths`:
`any(current == end or current.startswith(end + "@") for end in end_nodes)`. -/
def matchesEnd (ends : List String) (current : String) : Bool :=
  ends.any (fun e => current == e || pyStartswith current (e ++ "@"))

/-- The segments leaving `current`: `add_segment` stores each segment under
`graph[from_node][to_node]`, and `dfs` iterates over every neighbor list of
`current`.  Grouping by `to_node` only permutes the iteration order (hence
the order of `all_paths`), not the collection of segments tried, so the
adjacency read is embedded as a filter of the segment list in insertion
order; the `next_node` recomputed per segment inside `dfs` equals the
stored `to_node`. -/
def segmentsFrom (g : List RouteSegment) (current : String) : List RouteSegment :=
  g.filter (fun s => fromNode s == current)

/-- The inner recursive `dfs` of `RouteGraph.find_paths`.  The source
recurses on `depth` and returns at once when `depth > max_hops`; here
`fuel = max_hops + 1 - depth`, so `fuel = 0` holds exactly when
`depth > max_hops`, and each recursive call (`depth + 1`) passes `fuel - 1`.
`visited.copy()` in the source hands each child its own visited set with
`current` added, embedded by `current :: visited`; `path.append` before and
`path.pop` after the call are embedded by passing `path ++ [s]`. -/
def dfs (g : List RouteSegment) (ends : List String) :
    Nat → String → List RouteSegment → List String → List (List RouteSegment)
  | 0, _, _, _ => []
  | fuel + 1, current, path, visited =>
    if matchesEnd ends current then [path]
    else if current ∈ visited then []
    else (segmentsFrom g current).flatMap
      (fun s => dfs g ends fuel (toNode s) (path ++ [s]) (current :: visited))

/-- The start-node candidates of `find_paths`: the network-qualified node
plus the bare asset when a network is given, else the bare asset. -/
def startNodes (from_asset : String) (from_network : Option String) : List String :=
  match from_network with
  | some n => [from_asset ++ "@" ++ n, from_asset]
  | none => [from_asset]

/-- The end-node candidates of `find_paths`, symmetric to `startNodes`. -/
def endNodes (to_asset : String) (to_network : Option String) : List String :=
  match to_network with
  | some n => [to_asset ++ "@" ++ n, to_asset]
  | none => [to_asset]

/-- `RouteGraph.find_paths` (`app/services/graph_builder.py`): run `dfs`
from every start node present in the graph and concatenate the discovered
paths.  `max_hops` defaults to 5 in the source. -/
def findPaths (g : List RouteSegment) (from_asset to_asset : String)
    (from_network to_network : Option String) (maxHops : Nat) :
    List (List RouteSegment) :=
  ((startNodes from_asset from_network).filter
      (fun st => decide (st ∈ graphNodes g))).flatMap
    (fun st => dfs g (endNodes to_asset to_network) (maxHops + 1) st [] [])

/-- A bare FX segment USD → EUR. -/
def exUsdEur : RouteSegment :=
  { segment_type := SegmentType.fx, from_asset := "USD", to_asset := "EUR" }

/-- C3 counterexample: on the graph holding one FX segment USD → EUR, the
query USD → USD returns the empty path (the start node already matches a
destination), refuting "every path returned by find_paths is a non-empty
sequence of segments". -/
theorem c3_counterexample :
    findPaths [exUsdEur] "USD" "USD" none none 5 = [[]]
    ∧ ([] : List RouteSegment) ∈ findPaths [exUsdEur] "USD" "USD" none none 5 := by
  constructor <;> decide

/-- The walk property of a segment sequence starting at node `c`: each
segment leaves the node the previous one reached. -/
def chain : String → List RouteSegment → Prop
  | _, [] => True
  | c, s :: rest => fromNode s = c ∧ chain (toNode s) rest

/-- The node sequence visited by a segment sequence starting at `c`. -/
def pathNodes : String → List RouteSegment → List String
  | c, [] => [c]
  | c, s :: rest => c :: pathNodes (toNode s) rest

/-- The final node reached by a segment sequence starting at `c`. -/
def lastNode : String → List RouteSegment → String
  | c, [] => c
  | _, s :: rest => lastNode (toNode s) rest

lemma pathNodes_ne_nil (c : String) (p : List RouteSegment) :
    pathNodes c p ≠ [] := by
  cases p <;> simp [pathNodes]

lemma pathNodes_getLast (c : String) (p : List RouteSegment)
    (h : pathNodes c p ≠ []) : (pathNodes c p).getLast h = lastNode c p := by
  induction p generalizing c with
  | nil => simp [pathNodes, lastNode]
  | cons s rest ih =>
    show ((c :: pathNodes (toNode s) rest).getLast (by simp [pathNodes_ne_nil])) = _
    rw [List.getLast_cons (pathNodes_ne_nil _ _)]
    exact ih _ _

lemma mem_pathNodes_split {n : String} {c : String} {p : List RouteSegment}
    (h : n ∈ pathNodes c p) :
    n ∈ (pathNodes c p).dropLast ∨ n = lastNode c p := by
  have hne := pathNodes_ne_nil c p
  have hsplit := List.dropLast_append_getLast hne
  rw [← hsplit] at h
  rcases List.mem_append.mp h with h' | h'
  · exact Or.inl h'
  · right
    have := List.mem_singleton.mp h'
    rw [this, pathNodes_getLast]

lemma dropLast_cons_of_ne_nil {α : Type} (a : α) {l : List α} (h : l ≠ []) :
    (a :: l).dropLast = a :: l.dropLast := by
  cases l with
  | nil => exact absurd rfl h
  | cons b t => rfl

/-- Soundness invariant of `dfs`: every emitted path extends the
accumulator by a suffix that is a walk from `current`, has length below the
remaining fuel, ends at (and only at) a node matching the destination, and
whose internal nodes avoid `visited`; the visited node sequence has no
duplicates. -/
lemma dfs_sound (g : List RouteSegment) (ends : List String) :
    ∀ (fuel : Nat) (current : String) (path : List RouteSegment)
      (visited : List String) (q : List RouteSegment),
      q ∈ dfs g ends fuel current path visited →
      ∃ suf, q = path ++ suf ∧ chain current suf ∧ suf.length < fuel ∧
        matchesEnd ends (lastNode current suf) = true ∧
        (∀ n ∈ (pathNodes current suf).dropLast,
          matchesEnd ends n = false ∧ n ∉ visited) ∧
        (pathNodes current suf).Nodup := by
  intro fuel
  induction fuel with
  | zero =>
    intro current path visited q hq
    simp [dfs] at hq
  | succ fuel ih =>
    intro current path visited q hq
    rw [dfs] at hq
    by_cases hm : matchesEnd ends current
    · rw [if_pos hm] at hq
      have hq' : q = path := by simpa using hq
      refine ⟨[], by simp [hq'], trivial, by simp, ?_, ?_, ?_⟩
      · simpa [lastNode] using hm
      · simp [pathNodes]
      · simp [pathNodes]
    · rw [if_neg hm] at hq
      by_cases hv : current ∈ visited
      · rw [if_pos hv] at hq
        simp at hq
      · rw [if_neg hv] at hq
        obtain ⟨s, hs, hq'⟩ := List.mem_flatMap.mp hq
        have hfrom : fromNode s = current := by
          have := (List.mem_filter.mp hs).2
          simpa using this
        obtain ⟨suf', hq_eq, hch, hlen, hlast, hfree, hnd⟩ :=
          ih (toNode s) (path ++ [s]) (current :: visited) q hq'
        have hinner_ne := pathNodes_ne_nil (toNode s) suf'
        refine ⟨s :: suf', by simp [hq_eq], ⟨hfrom, hch⟩, by simp; omega, ?_, ?_, ?_⟩
        · simpa [lastNode] using hlast
        · intro n hn
          rw [show pathNodes current (s :: suf')
                = current :: pathNodes (toNode s) suf' from rfl,
              dropLast_cons_of_ne_nil _ hinner_ne] at hn
          rcases List.mem_cons.mp hn with h' | h'
          · subst h'
            exact ⟨by simpa using hm, hv⟩
          · obtain ⟨he, hnv⟩ := hfree n h'
            exact ⟨he, fun hmem => hnv (List.mem_cons_of_mem _ hmem)⟩
        · rw [show pathNodes current (s :: suf')
                = current :: pathNodes (toNode s) suf' from rfl]
          refine List.nodup_cons.mpr ⟨?_, hnd⟩
          intro hmem
          rcases mem_pathNodes_split hmem with h' | h'
          · exact (hfree current h').2 (List.mem_cons_self _ _)
          · rw [← h'] at hlast
            exact hm (by simpa using hlast)

/-- C3 (amended): every path returned by `find_paths` is a walk in the
graph from a start node present in the graph to a node matching a
destination candidate, with no node repeated and length at most `max_hops`;
the path may however be empty (exactly the case in which a start node
already matches a destination, refuted non-emptiness in
`c3_counterexample`). -/
theorem c3_paths_acyclic_bounded (g : List RouteSegment) (fa ta : String)
    (fn tn : Option String) (maxHops : Nat) (p : List RouteSegment)
    (hp : p ∈ findPaths g fa ta fn tn maxHops) :
    ∃ st, st ∈ startNodes fa fn ∧ st ∈ graphNodes g ∧ chain st p ∧
      p.length ≤ maxHops ∧
      matchesEnd (endNodes ta tn) (lastNode st p) = true ∧
      (pathNodes st p).Nodup := by
  obtain ⟨st, hst, hdfs⟩ := List.mem_flatMap.mp hp
  have hstf := List.mem_filter.mp hst
  obtain ⟨suf, hq, hch, hlen, hlast, _, hnd⟩ :=
    dfs_sound g (endNodes ta tn) (maxHops + 1) st [] [] p hdfs
  have hps : p = suf := by simpa using hq
  subst hps
  exact ⟨st, hstf.1, of_decide_eq_true hstf.2, hch, by omega, hlast, hnd⟩

/-- Witness for the amended C3 on a concrete one-segment graph. -/
theorem c3_paths_acyclic_bounded_witness :
    ∃ st, st ∈ startNodes "USD" none ∧ st ∈ graphNodes [exUsdEur] ∧
      chain st [exUsdEur] ∧
      ([exUsdEur] : List RouteSegment).length ≤ 5 ∧
      matchesEnd (endNodes "EUR" none) (lastNode st [exUsdEur]) = true ∧
      (pathNodes st [exUsdEur]).Nodup :=
  c3_paths_acyclic_bounded [exUsdEur] "USD" "EUR" none none 5 [exUsdEur] (by decide)

/-- The in-memory wallet ledger of `Simulator`
(`app/services/execution/simulator.py`): `wallets : address → asset →
balance`, embedded as nested association lists.  Transactions and
confirmation counts do not influence any amount or status proved about
here and are omitted. -/
structure SimState where
  wallets : List (String × List (String × ℚ)) := []
deriving DecidableEq

/-- Association-list update embedding Python dict assignment: replace the
binding of `k` if present, else append it. -/
def alistSet {β : Type} : List (String × β) → String → β → List (String × β)
  | [], k, v => [(k, v)]
  | (k', v') :: rest, k, v =>
    if k' = k then (k, v) :: rest else (k', v') :: alistSet rest k v

/-- Association-list read embedding a Python dict read. -/
def alistGet {β : Type} : List (String × β) → String → Option β
  | [], _ => none
  | (k', v') :: rest, k => if k' = k then some v' else alistGet rest k

/-- The asset map of a wallet; a missing wallet reads as empty
(`get_balance`/`set_balance` auto-create an empty wallet dict, which does
not change any balance). -/
def walletAssets (sim : SimState) (w : String) : List (String × ℚ) :=
  (alistGet sim.wallets w).getD []

/-- `Simulator.get_balance`: `wallets[wallet_id].get(asset, 0.0)`. -/
def getBalance (sim : SimState) (w asset : String) : ℚ :=
  (alistGet (walletAssets sim w) asset).getD 0

/-- `Simulator.set_balance`: `wallets[wallet_id][asset] = amount`. -/
def setBalance (sim : SimState) (w asset : String) (amount : ℚ) : SimState :=
  ⟨alistSet sim.wallets w (alistSet (walletAssets sim w) asset amount)⟩

/-- `Simulator.add_balance`. -/
def addBalance (sim : SimState) (w asset : String) (amount : ℚ) : SimState :=
  setBalance sim w asset (getBalance sim w asset + amount)

/-- `Simulator.subtract_balance`: succeeds (returning `true`) only when the
current balance covers the amount; otherwise the ledger is unchanged. -/
def subtractBalance (sim : SimState) (w asset : String) (amount : ℚ) :
    Bool × SimState :=
  let current := getBalance sim w asset
  if amount ≤ current then (true, setBalance sim w asset (current - amount))
  else (false, sim)

lemma alistGet_alistSet_self {β : Type} (l : List (String × β)) (k : String)
    (v : β) : alistGet (alistSet l k v) k = some v := by
  induction l with
  | nil => simp [alistSet, alistGet]
  | cons kv rest ih =>
    obtain ⟨k', v'⟩ := kv
    by_cases h : k' = k
    · simp [alistSet, h, alistGet]
    · simp [alistSet, h, alistGet, ih]

lemma getBalance_setBalance_self (sim : SimState) (w asset : String)
    (v : ℚ) : getBalance (setBalance sim w asset v) w asset = v := by
  simp [getBalance, setBalance, walletAssets, alistGet_alistSet_self]

lemma getBalance_addBalance_self (sim : SimState) (w asset : String)
    (amt : ℚ) :
    getBalance (addBalance sim w asset amt) w asset
      = getBalance sim w asset + amt := by
  simp [addBalance, getBalance_setBalance_self]

/-- Segment execution status (`SegmentExecutionStatus` in
`app/schemas/execution.py`). -/
inductive SegStatus
  | pending
  | executing
  | confirming
  | completed
  | failed
  | skipped
deriving DecidableEq

/-- The fields of `SegmentExecutionResult` that the fee, amount and status
claims concern.  Assets, timestamps, hashes and the simulation-detail map
are omitted. -/
structure SegResult where
  status : SegStatus
  input_amount : ℚ
  output_amount : ℚ
  fees_paid : ℚ
  error : Option String := none
deriving DecidableEq

/-- The FAILED result every executor's exception handler builds:
`output_amount = 0`, `fees_paid = 0`, the error message recorded. -/
def failedResult (input : ℚ) (msg : String) : SegResult :=
  { status := SegStatus.failed, input_amount := input, output_amount := 0,
    fees_paid := 0, error := some msg }

/-- The fee law as the specification and claim C1 state it (fee percent
clamped to `[0, 100]`, fixed fee floored at `0`).  Written from the spec's
words, to compare against the executor embeddings. -/
def specFees (cost : SegmentCost) (input : ℚ) : ℚ :=
  input * max 0 (min 100 (cost.fee_percent.getD 0)) / 100
    + max 0 (cost.fixed_fee.getD 0)

/-- The output law as the specification and claim C1 state it
(`max(0, input - fees) * rate`). -/
def specOutput (cost : SegmentCost) (input : ℚ) : ℚ :=
  max 0 (input - specFees cost input) * cost.effective_fx_rate.getD 1

/-- `FXExecutor.execute`, simulation branch
(`app/services/execution/segment_executors.py`, the branch taken in
simulation mode).  It reads the cost dict without clamping, flooring or
validation, and always returns a COMPLETED result
(`simulate_fx_conversion` only sleeps and echoes values). -/
def fxExecute (seg : RouteSegment) (input : ℚ) : SegResult :=
  let fee_percent := seg.cost.fee_percent.getD 0
  let fixed_fee := seg.cost.fixed_fee.getD 0
  let fx_rate := seg.cost.effective_fx_rate.getD 1
  let fees := input * fee_percent / 100 + fixed_fee
  let amount_after_fees := input - fees
  { status := SegStatus.completed, input_amount := input,
    output_amount := amount_after_fees * fx_rate, fees_paid := fees }

/-- The ensure-balance step shared by the CRYPTO, BRIDGE and OFF_RAMP
executors: `if current_balance < input_amount: add_balance(wallet, asset,
input_amount - current_balance)`. -/
def ensureBalance (sim : SimState) (w asset : String) (input : ℚ) : SimState :=
  if getBalance sim w asset < input then
    addBalance sim w asset (input - getBalance sim w asset)
  else sim

/-- `CryptoExecutor.execute`, simulation branch.  `walletAddress` is the
optional caller-provided wallet; `freshAddr` stands for the random address
`simulator.generate_wallet` would mint when none is given.  A `raise`
caught by the enclosing handler is embedded as the FAILED result that
handler builds; the ledger keeps the mutations made before the raise.  The
boolean returned by `subtract_balance` is discarded, exactly as in the
source. -/
def cryptoExecute (sim : SimState) (seg : RouteSegment) (input : ℚ)
    (walletAddress : Option String) (freshAddr : String) :
    SegResult × SimState :=
  let w := walletAddress.getD freshAddr
  let sim1 := ensureBalance sim w seg.from_asset input
  let fee_percent := max 0 (min 100 (seg.cost.fee_percent.getD 0))
  let fixed_fee := max 0 (seg.cost.fixed_fee.getD 0)
  let swap_rate := seg.cost.effective_fx_rate.getD 1
  if swap_rate ≤ 0 then (failedResult input "Invalid swap rate", sim1)
  else if input < 0 then (failedResult input "Invalid input amount", sim1)
  else
    let fees := input * fee_percent / 100 + fixed_fee
    let output := max 0 (input - fees) * swap_rate
    let sim2 := (subtractBalance sim1 w seg.from_asset input).2
    ({ status := SegStatus.completed, input_amount := input,
       output_amount := output, fees_paid := fees },
     addBalance sim2 w seg.to_asset output)

/-- `BridgeExecutor.execute` (simulation only in the source): same asset on
another network, output floored at zero, no rate read, only the input
amount validated; the destination credit goes to the same address. -/
def bridgeExecute (sim : SimState) (seg : RouteSegment) (input : ℚ)
    (walletAddress : Option String) (freshAddr : String) :
    SegResult × SimState :=
  let w := walletAddress.getD freshAddr
  let sim1 := ensureBalance sim w seg.from_asset input
  let fee_percent := max 0 (min 100 (seg.cost.fee_percent.getD 0))
  let fixed_fee := max 0 (seg.cost.fixed_fee.getD 0)
  if input < 0 then (failedResult input "Invalid input amount", sim1)
  else
    let fees := input * fee_percent / 100 + fixed_fee
    let output := max 0 (input - fees)
    let sim2 := (subtractBalance sim1 w seg.from_asset input).2
    ({ status := SegStatus.completed, input_amount := input,
       output_amount := output, fees_paid := fees },
     addBalance sim2 w seg.to_asset output)

/-- `RampExecutor.execute`: the ON_RAMP branch credits the destination
asset without touching a source balance; the OFF_RAMP branch ensures and
debits the source balance and credits nothing (the fiat leaves the
ledger).  Both clamp the fee inputs and validate rate and input amount. -/
def rampExecute (sim : SimState) (seg : RouteSegment) (input : ℚ)
    (walletAddress : Option String) (freshAddr : String) :
    SegResult × SimState :=
  let w := walletAddress.getD freshAddr
  let fee_percent := max 0 (min 100 (seg.cost.fee_percent.getD 0))
  let fixed_fee := max 0 (seg.cost.fixed_fee.getD 0)
  let rate := seg.cost.effective_fx_rate.getD 1
  if seg.segment_type = SegmentType.on_ramp then
    if rate ≤ 0 then (failedResult input "Invalid rate", sim)
    else if input < 0 then (failedResult input "Invalid input amount", sim)
    else
      let fees := input * fee_percent / 100 + fixed_fee
      let output := max 0 (input - fees) * rate
      ({ status := SegStatus.completed, input_amount := input,
         output_amount := output, fees_paid := fees },
       addBalance sim w seg.to_asset output)
  else
    let sim1 := ensureBalance sim w seg.from_asset input
    if rate ≤ 0 then (failedResult input "Invalid rate", sim1)
    else if input < 0 then (failedResult input "Invalid input amount", sim1)
    else
      let fees := input * fee_percent / 100 + fixed_fee
      let output := max 0 (input - fees) * rate
      ({ status := SegStatus.completed, input_amount := input,
         output_amount := output, fees_paid := fees },
     (subtractBalance sim1 w seg.from_asset input).2)

/-- `BankRailExecutor.execute`, simulation branch: clamped fee law with
rate and input validation; no ledger involvement. -/
def bankRailExecute (seg : RouteSegment) (input : ℚ) : SegResult :=
  let fee_percent := max 0 (min 100 (seg.cost.fee_percent.getD 0))
  let fixed_fee := max 0 (seg.cost.fixed_fee.getD 0)
  let fx_rate := seg.cost.effective_fx_rate.getD 1
  if fx_rate ≤ 0 then failedResult input "Invalid FX rate"
  else if input < 0 then failedResult input "Invalid input amount"
  else
    let fees := input * fee_percent / 100 + fixed_fee
    { status := SegStatus.completed, input_amount := input,
      output_amount := max 0 (input - fees) * fx_rate, fees_paid := fees }

/-- An FX segment with `fee_percent = 200` — within C1's hypotheses
(non-negative input, positive rate) once paired with input `1000`. -/
def exBadFeeSeg : RouteSegment :=
  { segment_type := SegmentType.fx, from_asset := "USD", to_asset := "EUR",
    cost := { fee_percent := some 200, fixed_fee := some 0,
              effective_fx_rate := some 1 } }

/-- C1 counterexample: the FX executor does not clamp the fee percent and
does not floor the output at zero — at input 1000, `fee_percent = 200`,
rate 1 it returns fees 2000 and output −1000, where the claim's clamped
law gives fees 1000 and output 0. -/
theorem c1_counterexample :
    (fxExecute exBadFeeSeg 1000).fees_paid = 2000
    ∧ (fxExecute exBadFeeSeg 1000).output_amount = -1000
    ∧ specFees exBadFeeSeg.cost 1000 = 1000
    ∧ specOutput exBadFeeSeg.cost 1000 = 0
    ∧ (fxExecute exBadFeeSeg 1000).fees_paid ≠ specFees exBadFeeSeg.cost 1000 := by
  refine ⟨?_, ?_, ?_, ?_, ?_⟩ <;>
    norm_num [fxExecute, specFees, specOutput, exBadFeeSeg, min_def, max_def]

/-- The worked-example segment of claim C1: fee 0.1 %, no fixed fee,
rate 0.92. -/
def exFeeSeg : RouteSegment :=
  { segment_type := SegmentType.crypto, from_asset := "USDC", to_asset := "EUR",
    cost := { fee_percent := some (1/10), fixed_fee := some 0,
              effective_fx_rate := some (92/100) } }

/-- C1 (amended): with non-negative input and positive effective rate, the
CRYPTO, ON_RAMP/OFF_RAMP and BANK_RAIL executors compute exactly the
clamped fee law `fees = input·clamp(fee_percent,0,100)/100 +
max(fixed_fee,0)` and `output = max(0, input − fees)·rate`; the BRIDGE
executor computes the same clamped fees but
`output = max(0, input − fees)` with no rate factor; the FX executor
instead computes `fees = input·fee_percent/100 + fixed_fee` with no
clamping and `output = (input − fees)·rate` with no zero floor.  On the
claim's worked example (input 1000, fee 0.1, fixed 0, rate 0.92) the
CRYPTO and FX executors both give fees 1.0 and output 919.08. -/
theorem c1_fee_law (sim : SimState) (seg : RouteSegment) (input : ℚ)
    (wa : Option String) (fa : String) (hin : 0 ≤ input)
    (hrate : 0 < seg.cost.effective_fx_rate.getD 1) :
    ((cryptoExecute sim seg input wa fa).1.status = SegStatus.completed
      ∧ (cryptoExecute sim seg input wa fa).1.fees_paid = specFees seg.cost input
      ∧ (cryptoExecute sim seg input wa fa).1.output_amount
          = specOutput seg.cost input)
    ∧ ((rampExecute sim seg input wa fa).1.status = SegStatus.completed
      ∧ (rampExecute sim seg input wa fa).1.fees_paid = specFees seg.cost input
      ∧ (rampExecute sim seg input wa fa).1.output_amount
          = specOutput seg.cost input)
    ∧ ((bankRailExecute seg input).status = SegStatus.completed
      ∧ (bankRailExecute seg input).fees_paid = specFees seg.cost input
      ∧ (bankRailExecute seg input).output_amount = specOutput seg.cost input)
    ∧ ((bridgeExecute sim seg input wa fa).1.status = SegStatus.completed
      ∧ (bridgeExecute sim seg input wa fa).1.fees_paid = specFees seg.cost input
      ∧ (bridgeExecute sim seg input wa fa).1.output_amount
          = max 0 (input - specFees seg.cost input))
    ∧ ((fxExecute seg input).fees_paid
          = input * seg.cost.fee_percent.getD 0 / 100 + seg.cost.fixed_fee.getD 0
      ∧ (fxExecute seg input).output_amount
          = (input - (fxExecute seg input).fees_paid)
              * seg.cost.effective_fx_rate.getD 1)
    ∧ ((cryptoExecute {} exFeeSeg 1000 none "w").1.fees_paid = 1
      ∧ (cryptoExecute {} exFeeSeg 1000 none "w").1.output_amount = 91908/100
      ∧ (fxExecute exFeeSeg 1000).fees_paid = 1
      ∧ (fxExecute exFeeSeg 1000).output_amount = 91908/100) := by
  refine ⟨?_, ?_, ?_, ?_, ⟨rfl, rfl⟩, ?_, ?_, ?_, ?_⟩
  · simp only [cryptoExecute]
    rw [if_neg (not_le.mpr hrate), if_neg (not_lt.mpr hin)]
    exact ⟨rfl, rfl, rfl⟩
  · simp only [rampExecute]
    by_cases hty : seg.segment_type = SegmentType.on_ramp
    · rw [if_pos hty, if_neg (not_le.mpr hrate), if_neg (not_lt.mpr hin)]
      exact ⟨rfl, rfl, rfl⟩
    · rw [if_neg hty, if_neg (not_le.mpr hrate), if_neg (not_lt.mpr hin)]
      exact ⟨rfl, rfl, rfl⟩
  · simp only [bankRailExecute]
    rw [if_neg (not_le.mpr hrate), if_neg (not_lt.mpr hin)]
    exact ⟨rfl, rfl, rfl⟩
  · simp only [bridgeExecute]
    rw [if_neg (not_lt.mpr hin)]
    exact ⟨rfl, rfl, rfl⟩
  · norm_num [cryptoExecute, exFeeSeg, min_def, max_def]
  · norm_num [cryptoExecute, exFeeSeg, min_def, max_def]
  · norm_num [fxExecute, exFeeSeg]
  · norm_num [fxExecute, exFeeSeg]

/-- Witness for C1 at the worked example (and at a wallet-free bank-rail
and ramp run of the same segment costs). -/
theorem c1_fee_law_witness :
    (cryptoExecute {} exFeeSeg 1000 none "w").1.status = SegStatus.completed
    ∧ (cryptoExecute {} exFeeSeg 1000 none "w").1.fees_paid
        = specFees exFeeSeg.cost 1000
    ∧ (rampExecute {} exFeeSeg 1000 none "w").1.fees_paid
        = specFees exFeeSeg.cost 1000
    ∧ (bankRailExecute exFeeSeg 1000).fees_paid = specFees exFeeSeg.cost 1000
    ∧ (bridgeExecute {} exFeeSeg 1000 none "w").1.output_amount
        = max 0 (1000 - specFees exFeeSeg.cost 1000)
    ∧ (fxExecute exFeeSeg 1000).fees_paid
        = 1000 * exFeeSeg.cost.fee_percent.getD 0 / 100
            + exFeeSeg.cost.fixed_fee.getD 0 := by
  obtain ⟨⟨h1, h2, _⟩, ⟨_, h3, _⟩, ⟨_, h4, _⟩, ⟨_, _, h5⟩, ⟨h6, _⟩, _⟩ :=
    c1_fee_law {} exFeeSeg 1000 none "w" (by norm_num) (by norm_num [exFeeSeg])
  exact ⟨h1, h2, h3, h4, h5, h6⟩

/-- An FX segment with a negative effective rate. -/
def exBadRateSeg : RouteSegment :=
  { segment_type := SegmentType.fx, from_asset := "USD", to_asset := "EUR",
    cost := { effective_fx_rate := some (-1) } }

/-- C7 counterexample: the FX executor performs no validation in the
simulation branch — with a non-positive (here negative) effective rate,
and likewise with a negative input amount, it returns COMPLETED, not
FAILED. -/
theorem c7_counterexample :
    (fxExecute exBadRateSeg 100).status = SegStatus.completed
    ∧ (fxExecute exBadRateSeg 100).status ≠ SegStatus.failed
    ∧ (fxExecute exBadRateSeg (-50)).status = SegStatus.completed := by
  refine ⟨by decide, by decide, by decide⟩

/-- C7 (amended): the CRYPTO, ON_RAMP/OFF_RAMP and BANK_RAIL executors
reject a non-positive effective rate or a negative input amount with a
FAILED result; the BRIDGE executor rejects a negative input amount (it
never reads the rate); the FX executor performs no such validation
(`c7_counterexample`).  No exception escapes `execute`: the embedded
executors are total, each `raise` surfacing as the FAILED result the
enclosing handler builds. -/
theorem c7_validation (sim : SimState) (seg : RouteSegment) (input : ℚ)
    (wa : Option String) (fa : String)
    (h : seg.cost.effective_fx_rate.getD 1 ≤ 0 ∨ input < 0) :
    (cryptoExecute sim seg input wa fa).1.status = SegStatus.failed
    ∧ (rampExecute sim seg input wa fa).1.status = SegStatus.failed
    ∧ (bankRailExecute seg input).status = SegStatus.failed
    ∧ (input < 0 →
        (bridgeExecute sim seg input wa fa).1.status = SegStatus.failed) := by
  refine ⟨?_, ?_, ?_, ?_⟩
  · simp only [cryptoExecute]
    split_ifs with h1 h2
    · rfl
    · rfl
    · exfalso
      rcases h with h | h
      · exact h1 h
      · exact h2 h
  · simp only [rampExecute]
    split_ifs with h0 h1 h2 h3 h4 <;>
      first
        | rfl
        | (exfalso; rcases h with hh | hh <;> tauto)
  · simp only [bankRailExecute]
    split_ifs with h1 h2
    · rfl
    · rfl
    · exfalso
      rcases h with h | h
      · exact h1 h
      · exact h2 h
  · intro hneg
    simp only [bridgeExecute]
    rw [if_pos hneg]
    rfl

/-- Witness for C7 on a concrete invalid segment and amount. -/
theorem c7_validation_witness :
    (cryptoExecute {} exBadRateSeg (-50) none "w").1.status = SegStatus.failed
    ∧ (rampExecute {} exBadRateSeg (-50) none "w").1.status = SegStatus.failed
    ∧ (bankRailExecute exBadRateSeg (-50)).status = SegStatus.failed
    ∧ (bridgeExecute {} exBadRateSeg (-50) none "w").1.status
        = SegStatus.failed := by
  obtain ⟨h1, h2, h3, h4⟩ :=
    c7_validation {} exBadRateSeg (-50) none "w" (Or.inr (by norm_num))
  exact ⟨h1, h2, h3, h4 (by norm_num)⟩

/-- C10: the CRYPTO, BRIDGE and OFF_RAMP executors top the source-asset
balance up to the input amount before debiting, so for any ledger and any
non-negative input the `subtract_balance` they then issue succeeds, and in
simulation none of the three ever fails for insufficient wallet balance —
with non-negative input, CRYPTO and OFF_RAMP can fail only on a
non-positive rate, and BRIDGE cannot fail at all. -/
theorem c10_balance_topup (sim : SimState) (seg : RouteSegment) (input : ℚ)
    (w asset : String) (hin : 0 ≤ input) :
    (subtractBalance (ensureBalance sim w asset input) w asset input).1 = true
    ∧ (∀ wa fa, (cryptoExecute sim seg input wa fa).1.status = SegStatus.failed →
        seg.cost.effective_fx_rate.getD 1 ≤ 0)
    ∧ (∀ wa fa, (bridgeExecute sim seg input wa fa).1.status ≠ SegStatus.failed)
    ∧ (∀ wa fa, (rampExecute sim seg input wa fa).1.status = SegStatus.failed →
        seg.cost.effective_fx_rate.getD 1 ≤ 0) := by
  refine ⟨?_, ?_, ?_, ?_⟩
  · simp only [subtractBalance, ensureBalance]
    by_cases hb : getBalance sim w asset < input
    · rw [if_pos hb, getBalance_addBalance_self]
      have he : getBalance sim w asset + (input - getBalance sim w asset)
          = input := by ring
      rw [he, if_pos le_rfl]
    · rw [if_neg hb, if_pos (not_lt.mp hb)]
  · intro wa fa
    simp only [cryptoExecute]
    split_ifs with h1 h2
    · intro _; exact h1
    · exact absurd h2 (not_lt.mpr hin)
    · intro hcontra
      simp at hcontra
  · intro wa fa
    simp only [bridgeExecute]
    rw [if_neg (not_lt.mpr hin)]
    simp
  · intro wa fa
    simp only [rampExecute]
    split_ifs with h0 h1 h2 h3 h4 <;>
      first
        | (intro _; assumption)
        | (exact absurd (by assumption) (not_lt.mpr hin))
        | (intro hcontra; simp at hcontra)

/-- Witness for C10: a wallet holding 40 USDC receives a 100 USDC debit
after top-up, and the executors complete. -/
theorem c10_balance_topup_witness :
    (subtractBalance
        (ensureBalance ⟨[("0xabc", [("USDC", 40)])]⟩ "0xabc" "USDC" 100)
        "0xabc" "USDC" 100).1 = true
    ∧ (bridgeExecute ⟨[("0xabc", [("USDC", 40)])]⟩ exCryptoSeg 100
        (some "0xabc") "w").1.status ≠ SegStatus.failed := by
  obtain ⟨h1, _, h3, _⟩ :=
    c10_balance_topup ⟨[("0xabc", [("USDC", 40)])]⟩ exCryptoSeg 100
      "0xabc" "USDC" (by norm_num)
  exact ⟨h1, h3 (some "0xabc") "w"⟩

/-- The path-metrics dict built by `ORToolsSolver._calculate_path_metrics`
(`app/services/ortools_solver.py`), restricted to the keys read
downstream.  Note the two distinct cost keys: `total_cost` (fee percent
plus fixed fee scaled by `0.0001`) and `total_cost_percent`. -/
structure PathMetrics where
  total_cost : ℚ
  total_cost_percent : ℚ
  total_fixed_fee : ℚ
  total_latency : ℚ
  reliability : ℚ
  combined_score : ℚ
  num_segments : ℕ
deriving DecidableEq

/-- `ORToolsSolver._calculate_path_metrics`. -/
def calcPathMetrics (cost_weight latency_weight reliability_weight : ℚ)
    (path : List RouteSegment) : PathMetrics :=
  let tcp := (path.map (fun s => s.cost.fee_percent.getD 0)).sum
  let tff := (path.map (fun s => s.cost.fixed_fee.getD 0)).sum
  let tmin := (path.map (fun s => s.latency.min_minutes.getD 0)).sum
  let tmax := (path.map (fun s => s.latency.max_minutes.getD 0)).sum
  let avg_rel := if path.length = 0 then 0
    else (path.map (fun s => s.reliability_score)).sum / path.length
  { total_cost := tcp + tff * (1/10000),
    total_cost_percent := tcp,
    total_fixed_fee := tff,
    total_latency := (tmin + tmax) / 2,
    reliability := avg_rel,
    combined_score := cost_weight * (tcp + tff * (1/10000))
      + latency_weight * (((tmin + tmax) / 2) / 60)
      + reliability_weight * (1 - avg_rel),
    num_segments := path.length }

/-- Python `min(l)` over a list; the source guards `min(costs) if costs
else 0.0`, embedded by the empty-list default 0. -/
def pyMin : List ℚ → ℚ
  | [] => 0
  | x :: xs => xs.foldl min x

/-- Python `max(l)`; the source default for an empty list is 1.0. -/
def pyMax : List ℚ → ℚ
  | [] => 1
  | x :: xs => xs.foldl max x

/-- `max_v - min_v if max_v > min_v else 1.0`, the range guard used for
each of the three metrics in `ArgMaxDecisionLayer`. -/
def normRange (mn mx : ℚ) : ℚ :=
  if mn < mx then mx - mn else 1

/-- The normalization-and-scoring pass shared verbatim by
`ArgMaxDecisionLayer.select_optimal_route` and `rank_routes`
(`app/services/argmax_decision.py`): min-max normalize `total_cost`,
`total_latency` and `reliability` across the candidate set, invert the
reliability term, and weight by `alpha`, `beta`, `gamma`. -/
def scoredRoutes (alpha beta gamma : ℚ)
    (cands : List (List RouteSegment × PathMetrics)) :
    List (List RouteSegment × PathMetrics × ℚ) :=
  let costs := cands.map (fun c => c.2.total_cost)
  let lats := cands.map (fun c => c.2.total_latency)
  let rels := cands.map (fun c => c.2.reliability)
  let minC := pyMin costs
  let rangeC := normRange minC (pyMax costs)
  let minL := pyMin lats
  let rangeL := normRange minL (pyMax lats)
  let minR := pyMin rels
  let rangeR := normRange minR (pyMax rels)
  cands.map (fun c =>
    let nc := if 0 < rangeC then (c.2.total_cost - minC) / rangeC else 0
    let nl := if 0 < rangeL then (c.2.total_latency - minL) / rangeL else 0
    let nr := 1 - (if 0 < rangeR then (c.2.reliability - minR) / rangeR else 0)
    (c.1, c.2, alpha * nc + beta * nl + gamma * nr))

/-- First index of the minimal value: both `np.argmin` and the manual
`min(range(n), key=...)` fallback return the first occurrence of the
minimum. -/
def argminAux : List ℚ → ℚ → Nat → Nat → Nat
  | [], _, _, best => best
  | x :: xs, bv, i, best =>
    if x < bv then argminAux xs x (i + 1) i else argminAux xs bv (i + 1) best

/-- First index of the minimum of a list (0 on the empty list, which the
callers exclude). -/
def argminIdx : List ℚ → Nat
  | [] => 0
  | x :: xs => argminAux xs x 1 0

/-- `ArgMaxDecisionLayer.select_optimal_route`: `none` embeds the source's
`(None, {}, 0.0)` empty-input result; otherwise the candidate at the first
index of minimal score. -/
def selectOptimalRoute (alpha beta gamma : ℚ)
    (cands : List (List RouteSegment × PathMetrics)) :
    Option (List RouteSegment × PathMetrics × ℚ) :=
  match cands with
  | [] => none
  | _ :: _ =>
    let scored := scoredRoutes alpha beta gamma cands
    scored.get? (argminIdx (scored.map (fun t => t.2.2)))

/-- `select_optimal_route` as claim C4 words it: identical except that the
min-max-normalized cost metric is `total_cost_percent` instead of
`total_cost`.  Written from the claim's words, to compare with the source
embedding `selectOptimalRoute`. -/
def claimScoredRoutes (alpha beta gamma : ℚ)
    (cands : List (List RouteSegment × PathMetrics)) :
    List (List RouteSegment × PathMetrics × ℚ) :=
  let costs := cands.map (fun c => c.2.total_cost_percent)
  let lats := cands.map (fun c => c.2.total_latency)
  let rels := cands.map (fun c => c.2.reliability)
  let minC := pyMin costs
  let rangeC := normRange minC (pyMax costs)
  let minL := pyMin lats
  let rangeL := normRange minL (pyMax lats)
  let minR := pyMin rels
  let rangeR := normRange minR (pyMax rels)
  cands.map (fun c =>
    let nc := if 0 < rangeC then (c.2.total_cost_percent - minC) / rangeC else 0
    let nl := if 0 < rangeL then (c.2.total_latency - minL) / rangeL else 0
    let nr := 1 - (if 0 < rangeR then (c.2.reliability - minR) / rangeR else 0)
    (c.1, c.2, alpha * nc + beta * nl + gamma * nr))

/-- The selection rule of claim C4 over the claim-worded scoring pass. -/
def claimSelectOptimalRoute (alpha beta gamma : ℚ)
    (cands : List (List RouteSegment × PathMetrics)) :
    Option (List RouteSegment × PathMetrics × ℚ) :=
  match cands with
  | [] => none
  | _ :: _ =>
    let scored := claimScoredRoutes alpha beta gamma cands
    scored.get? (argminIdx (scored.map (fun t => t.2.2)))

lemma foldl_min_le_init (xs : List ℚ) : ∀ b : ℚ, xs.foldl min b ≤ b := by
  induction xs with
  | nil => intro b; exact le_rfl
  | cons x xs ih =>
    intro b
    exact le_trans (ih (min b x)) (min_le_left b x)

lemma foldl_min_le_mem (xs : List ℚ) :
    ∀ (b x : ℚ), x ∈ xs → xs.foldl min b ≤ x := by
  induction xs with
  | nil => intro b x hx; simp at hx
  | cons y ys ih =>
    intro b x hx
    rcases List.mem_cons.mp hx with h | h
    · subst h
      exact le_trans (foldl_min_le_init ys (min b x)) (min_le_right b x)
    · exact ih (min b y) x h

lemma pyMin_le_mem (l : List ℚ) (x : ℚ) (hx : x ∈ l) : pyMin l ≤ x := by
  cases l with
  | nil => simp at hx
  | cons y ys =>
    rcases List.mem_cons.mp hx with h | h
    · subst h
      exact foldl_min_le_init ys x
    · exact foldl_min_le_mem ys y x h

lemma foldl_min_const (v : ℚ) (xs : List ℚ) (h : ∀ x ∈ xs, x = v) :
    xs.foldl min v = v := by
  induction xs with
  | nil => rfl
  | cons x xs ih =>
    have hx : x = v := h x (List.mem_cons_self x xs)
    subst hx
    simp only [List.foldl, min_self]
    exact ih (fun y hy => h y (List.mem_cons_of_mem x hy))

lemma pyMin_const (l : List ℚ) (v : ℚ) (h : ∀ x ∈ l, x = v) (hne : l ≠ []) :
    pyMin l = v := by
  cases l with
  | nil => exact absurd rfl hne
  | cons x xs =>
    have hx : x = v := h x (List.mem_cons_self x xs)
    subst hx
    exact foldl_min_const x xs (fun y hy => h y (List.mem_cons_of_mem x hy))

lemma argminAux_lt (xs : List ℚ) :
    ∀ (bv : ℚ) (i best : Nat), best < i →
      argminAux xs bv i best < i + xs.length := by
  induction xs with
  | nil =>
    intro bv i best hb
    simpa [argminAux] using hb
  | cons x xs ih =>
    intro bv i best hb
    simp only [argminAux, List.length_cons]
    by_cases hlt : x < bv
    · rw [if_pos hlt]
      have h2 := ih x (i + 1) i (Nat.lt_succ_self i)
      omega
    · rw [if_neg hlt]
      have h2 := ih bv (i + 1) best (Nat.lt_succ_of_lt hb)
      omega

lemma argminAux_val (xs : List ℚ) :
    ∀ (bv : ℚ) (i best : Nat) (f : Nat → Option ℚ),
      f best = some bv → (∀ k, k < xs.length → f (i + k) = xs.get? k) →
      f (argminAux xs bv i best) = some (xs.foldl min bv) := by
  induction xs with
  | nil =>
    intro bv i best f hb _
    simpa [argminAux] using hb
  | cons x xs ih =>
    intro bv i best f hb hk
    simp only [argminAux, List.foldl]
    by_cases hlt : x < bv
    · rw [if_pos hlt]
      have hfi : f i = some x := by
        have := hk 0 (by simp)
        simpa using this
      have hmin : min bv x = x := min_eq_right (le_of_lt hlt)
      rw [hmin]
      refine ih x (i + 1) i f hfi ?_
      intro k hklt
      have := hk (k + 1) (by simpa using Nat.succ_lt_succ hklt)
      simpa [Nat.add_comm, Nat.add_assoc, Nat.add_left_comm] using this
    · rw [if_neg hlt]
      have hmin : min bv x = bv := min_eq_left (not_lt.mp hlt)
      rw [hmin]
      refine ih bv (i + 1) best f hb ?_
      intro k hklt
      have := hk (k + 1) (by simpa using Nat.succ_lt_succ hklt)
      simpa [Nat.add_comm, Nat.add_assoc, Nat.add_left_comm] using this

lemma argminIdx_lt (l : List ℚ) (hne : l ≠ []) : argminIdx l < l.length := by
  cases l with
  | nil => exact absurd rfl hne
  | cons x xs =>
    simp only [argminIdx, List.length_cons]
    have h := argminAux_lt xs x 1 0 Nat.one_pos
    rcases Nat.lt_or_ge (argminAux xs x 1 0) (1 + xs.length) with h' | h'
    · omega
    · omega

lemma get?_argminIdx (l : List ℚ) (hne : l ≠ []) :
    l.get? (argminIdx l) = some (pyMin l) := by
  cases l with
  | nil => exact absurd rfl hne
  | cons x xs =>
    simp only [argminIdx, pyMin]
    refine argminAux_val xs x 1 0 (x :: xs).get? (by simp) ?_
    intro k hklt
    simp [Nat.add_comm 1 k]

/-- C4 (amended): given one or more candidates, `select_optimal_route`
returns a candidate of the scoring pass whose score is minimal; the pass
min-max normalizes `total_cost` (which is `total_cost_percent` plus
`total_fixed_fee` scaled by `0.0001`, not `total_cost_percent` alone — see
`c4_counterexample`), `total_latency` and `reliability`, a degenerate
max = min range yielding normalized value 0 through a range guard of 1 in
place of a zero division; when all candidates carry identical metrics
every computed score equals `gamma` exactly. -/
theorem c4_argmin_correct (alpha beta gamma : ℚ)
    (cands : List (List RouteSegment × PathMetrics)) (hne : cands ≠ []) :
    ∃ best, selectOptimalRoute alpha beta gamma cands = some best
      ∧ best ∈ scoredRoutes alpha beta gamma cands
      ∧ (∀ x ∈ scoredRoutes alpha beta gamma cands, best.2.2 ≤ x.2.2)
      ∧ (∀ m : PathMetrics,
          (∀ c ∈ cands, c.2.total_cost = m.total_cost
            ∧ c.2.total_latency = m.total_latency
            ∧ c.2.reliability = m.reliability) →
          ∀ x ∈ scoredRoutes alpha beta gamma cands, x.2.2 = gamma) := by
  cases cands with
  | nil => exact absurd rfl hne
  | cons c0 cs =>
    have hscne : scoredRoutes alpha beta gamma (c0 :: cs) ≠ [] := by
      simp [scoredRoutes]
    have hscoresne :
        (scoredRoutes alpha beta gamma (c0 :: cs)).map (fun t => t.2.2) ≠ [] := by
      simpa using hscne
    have hlenidx :
        argminIdx ((scoredRoutes alpha beta gamma (c0 :: cs)).map (fun t => t.2.2))
          < (scoredRoutes alpha beta gamma (c0 :: cs)).length := by
      have h1 := argminIdx_lt _ hscoresne
      simpa using h1
    cases hget : (scoredRoutes alpha beta gamma (c0 :: cs)).get?
        (argminIdx ((scoredRoutes alpha beta gamma (c0 :: cs)).map
          (fun t => t.2.2))) with
    | none =>
      exfalso
      have h2 := List.get?_eq_none.mp hget
      omega
    | some best =>
      have hsel : selectOptimalRoute alpha beta gamma (c0 :: cs) = some best :=
        hget
      have hmem : best ∈ scoredRoutes alpha beta gamma (c0 :: cs) :=
        List.get?_mem hget
      have hval := get?_argminIdx _ hscoresne
      have hbestscore : best.2.2
          = pyMin ((scoredRoutes alpha beta gamma (c0 :: cs)).map
              (fun t => t.2.2)) := by
        have h1 : ((scoredRoutes alpha beta gamma (c0 :: cs)).map
            (fun t => t.2.2)).get?
              (argminIdx ((scoredRoutes alpha beta gamma (c0 :: cs)).map
                (fun t => t.2.2))) = some best.2.2 := by
          rw [List.get?_map, hget]
          rfl
        rw [h1] at hval
        exact (Option.some.inj hval)
      refine ⟨best, hsel, hmem, ?_, ?_⟩
      · intro x hx
        have hxs : x.2.2 ∈ (scoredRoutes alpha beta gamma (c0 :: cs)).map
            (fun t => t.2.2) := List.mem_map_of_mem _ hx
        rw [hbestscore]
        exact pyMin_le_mem _ _ hxs
      · intro m hm x hx
        simp only [scoredRoutes, List.mem_map] at hx
        obtain ⟨c, hc, hxeq⟩ := hx
        obtain ⟨hcc, hcl, hcr⟩ := hm c hc
        have hconst : ∀ (f : PathMetrics → ℚ),
            (∀ c' ∈ c0 :: cs, f c'.2 = f m) →
            pyMin ((c0 :: cs).map (fun c' => f c'.2)) = f m := by
          intro f hf
          refine pyMin_const _ _ ?_ (by simp)
          intro y hy
          obtain ⟨c', hc', hy'⟩ := List.mem_map.mp hy
          rw [← hy']
          exact hf c' hc'
        have hminc := hconst (fun mm => mm.total_cost)
          (fun c' hc' => (hm c' hc').1)
        have hminl := hconst (fun mm => mm.total_latency)
          (fun c' hc' => (hm c' hc').2.1)
        have hminr := hconst (fun mm => mm.reliability)
          (fun c' hc' => (hm c' hc').2.2)
        simp only at hminc hminl hminr
        rw [← hxeq]
        dsimp only
        rw [hminc, hminl, hminr, hcc, hcl, hcr]
        simp only [sub_self, zero_div, ite_self]
        ring

/-- Witness for the amended C4 on a concrete candidate pair. -/
theorem c4_argmin_correct_witness :
    ∃ best, selectOptimalRoute (2/5) (3/10) (3/10)
        [([exUsdEur], calcPathMetrics 1 1 1 [exUsdEur])] = some best
      ∧ best ∈ scoredRoutes (2/5) (3/10) (3/10)
          [([exUsdEur], calcPathMetrics 1 1 1 [exUsdEur])]
      ∧ (∀ x ∈ scoredRoutes (2/5) (3/10) (3/10)
            [([exUsdEur], calcPathMetrics 1 1 1 [exUsdEur])],
          best.2.2 ≤ x.2.2) := by
  obtain ⟨best, h1, h2, h3, _⟩ :=
    c4_argmin_correct (2/5) (3/10) (3/10)
      [([exUsdEur], calcPathMetrics 1 1 1 [exUsdEur])] (by simp)
  exact ⟨best, h1, h2, h3⟩

/-- Candidate A: fee 1 %, fixed fee 2000 — `total_cost = 1.2`,
`total_cost_percent = 1`. -/
def pathA : List RouteSegment :=
  [{ segment_type := SegmentType.fx, from_asset := "USD", to_asset := "EUR",
     cost := { fee_percent := some 1, fixed_fee := some 2000 },
     latency := { min_minutes := some 60, max_minutes := some 60 },
     reliability_score := 9/10 }]

/-- Candidate B: fee 1.1 %, no fixed fee — `total_cost = 1.1`,
`total_cost_percent = 1.1`. -/
def pathB : List RouteSegment :=
  [{ segment_type := SegmentType.fx, from_asset := "USD", to_asset := "EUR",
     cost := { fee_percent := some (11/10), fixed_fee := some 0 },
     latency := { min_minutes := some 60, max_minutes := some 60 },
     reliability_score := 9/10 }]

/-- The two candidates with metrics as `_calculate_path_metrics` (weights
1, 1, 1) produces them. -/
def exCands : List (List RouteSegment × PathMetrics) :=
  [(pathA, calcPathMetrics 1 1 1 pathA), (pathB, calcPathMetrics 1 1 1 pathB)]

/-- C4 counterexample: the decision layer normalizes the metrics key
`total_cost`, not `total_cost_percent` as claimed — on `exCands` (equal
latency and reliability, cost-percent order opposite to total-cost order)
the source selects candidate B while the claim's procedure selects
candidate A. -/
theorem c4_counterexample :
    (selectOptimalRoute (2/5) (3/10) (3/10) exCands).map (fun t => t.1)
        = some pathB
    ∧ (claimSelectOptimalRoute (2/5) (3/10) (3/10) exCands).map (fun t => t.1)
        = some pathA
    ∧ pathA ≠ pathB := by
  refine ⟨?_, ?_, ?_⟩
  · norm_num [selectOptimalRoute, scoredRoutes, exCands, pathA, pathB,
      calcPathMetrics, pyMin, pyMax, normRange, argminIdx, argminAux,
      min_def, max_def, List.get?]
  · norm_num [claimSelectOptimalRoute, claimScoredRoutes, exCands, pathA,
      pathB, calcPathMetrics, pyMin, pyMax, normRange, argminIdx, argminAux,
      min_def, max_def, List.get?]
  · intro habs
    have h1 := congrArg (fun l : List RouteSegment =>
      ((l.head?).map (fun s => s.cost.fixed_fee.getD 37)).getD 37) habs
    norm_num [pathA, pathB] at h1

/-- Execution status (`ExecutionStatus` in `app/schemas/execution.py`),
restricted to the values the result-building paths assign. -/
inductive ExecStatus
  | in_progress
  | completed
  | failed
  | cancelled
deriving DecidableEq

/-- The fields of `RouteExecutionResponse` the orchestrator claims
concern (cost-percent, eta and reliability display fields omitted). -/
structure ExecResponse where
  status : ExecStatus
  total_fees : ℚ
  input_amount : ℚ
  final_amount : ℚ
  segment_executions : List SegResult
  route : List RouteSegment
deriving DecidableEq

/-- `AdvancedExecutionService._handle_cancellation`: status CANCELLED,
total fees summed over the completed segment results, final amount the
last completed segment's output (the original amount when none completed),
and exactly the completed results reported. -/
def handleCancellation (route : List RouteSegment) (results : List SegResult)
    (originalAmount : ℚ) : ExecResponse :=
  { status := ExecStatus.cancelled,
    total_fees := (results.map (fun r => r.fees_paid)).sum,
    input_amount := originalAmount,
    final_amount :=
      ((results.getLast?).map (fun r => r.output_amount)).getD originalAmount,
    segment_executions := results,
    route := route }

/-- `AdvancedExecutionService._build_response`: FAILED when any reported
segment failed, else CANCELLED when the execution state reads CANCELLING
at build time, else COMPLETED. -/
def buildResponse (route : List RouteSegment) (results : List SegResult)
    (inputAmount finalAmount : ℚ) (cancelling : Bool) : ExecResponse :=
  { status :=
      if results.any (fun r => decide (r.status = SegStatus.failed)) then
        ExecStatus.failed
      else if cancelling then ExecStatus.cancelled
      else ExecStatus.completed,
    total_fees := (results.map (fun r => r.fees_paid)).sum,
    input_amount := inputAmount,
    final_amount := finalAmount,
    segment_executions := results,
    route := route }

/-- Whether the CANCELLING state is visible at loop boundary `idx`:
`cancel_execution` sets the state under the execution lock;
`cancelAt = some k` models the cancel request arriving after the boundary
`k - 1` status check and before the boundary `k` one. -/
def cancelVisible (cancelAt : Option Nat) (idx : Nat) : Prop :=
  match cancelAt with
  | some k => k ≤ idx
  | none => False

instance instDecCancelVisible (cancelAt : Option Nat) (idx : Nat) :
    Decidable (cancelVisible cancelAt idx) :=
  match cancelAt with
  | some k => inferInstanceAs (Decidable (k ≤ idx))
  | none => inferInstanceAs (Decidable False)

/-- The loop of `AdvancedExecutionService._execute_sequential`.  The Python
loop is `for idx, segment_dict in enumerate(route_segments)`: the iterator
is frozen over the list the loop started with, so rebinding
`route_segments` on a reroute does not change the items iterated, and
`continue` advances to the next item of the frozen list.  `exec` stands
for `_execute_segment` (executor dispatch); `trigger` for the boolean
outcome of `_should_reroute` at an index, `newRouteAt` for the route
`_calculate_reroute` returns there (`none` embeds both a falsy result and
a caught exception); `rerouting` models
`execution_states[id] == REROUTING`, which `_calculate_reroute` sets and
nothing in the sequential flow resets, so once set every remaining
boundary takes the skip branch.  The PAUSED wait leaves all loop state
unchanged and is not modelled. -/
def seqGo (exec : Nat → RouteSegment → ℚ → SegResult) (enableAi : Bool)
    (trigger : Nat → Bool) (newRouteAt : Nat → Option (List RouteSegment))
    (cancelAt : Option Nat) (inputAmount : ℚ) :
    List RouteSegment → Nat → ℚ → List SegResult → Bool →
      List RouteSegment → ExecResponse
  | [], idx, current, acc, _, activeRoute =>
    buildResponse activeRoute acc inputAmount current
      (decide (cancelAt = some idx))
  | seg :: rest, idx, current, acc, rerouting, activeRoute =>
    if cancelVisible cancelAt idx then
      handleCancellation activeRoute acc inputAmount
    else if rerouting then
      seqGo exec enableAi trigger newRouteAt cancelAt inputAmount
        rest (idx + 1) current acc true activeRoute
    else
      match (if enableAi && decide (0 < idx) && trigger idx then
              newRouteAt idx else none) with
      | some nr =>
        seqGo exec enableAi trigger newRouteAt cancelAt inputAmount
          rest (idx + 1) current acc true nr
      | none =>
        let r := exec idx seg current
        if r.status = SegStatus.failed then
          buildResponse activeRoute (acc ++ [r]) inputAmount current false
        else
          seqGo exec enableAi trigger newRouteAt cancelAt inputAmount
            rest (idx + 1) r.output_amount (acc ++ [r]) false activeRoute

/-- `_execute_sequential` from the initial state: index 0, the requested
amount, no results, RUNNING state, active route as resolved. -/
def runSequential (exec : Nat → RouteSegment → ℚ → SegResult)
    (enableAi : Bool) (trigger : Nat → Bool)
    (newRouteAt : Nat → Option (List RouteSegment)) (cancelAt : Option Nat)
    (route : List RouteSegment) (amount : ℚ) : ExecResponse :=
  seqGo exec enableAi trigger newRouteAt cancelAt amount route 0 amount []
    false route

/-- The result sequence of executing a segment list in order, each segment
fed the previous output (the expected per-segment results of the
sequential loop absent cancellation, failure and rerouting). -/
def runResults (exec : Nat → RouteSegment → ℚ → SegResult) :
    Nat → ℚ → List RouteSegment → List SegResult
  | _, _, [] => []
  | idx, amt, seg :: rest =>
    let r := exec idx seg amt
    r :: runResults exec (idx + 1) r.output_amount rest

lemma runResults_length (exec : Nat → RouteSegment → ℚ → SegResult) :
    ∀ (idx : Nat) (amt : ℚ) (l : List RouteSegment),
      (runResults exec idx amt l).length = l.length := by
  intro idx amt l
  induction l generalizing idx amt with
  | nil => rfl
  | cons seg rest ih => simp [runResults, ih]

lemma seqGo_cancel (exec : Nat → RouteSegment → ℚ → SegResult)
    (trigger : Nat → Bool) (newRouteAt : Nat → Option (List RouteSegment))
    (inputAmount : ℚ) (k : Nat) :
    ∀ (rest : List RouteSegment) (idx : Nat) (current : ℚ)
      (acc : List SegResult) (activeRoute : List RouteSegment),
      idx ≤ k → k < idx + rest.length →
      (∀ r ∈ runResults exec idx current (rest.take (k - idx)),
        r.status ≠ SegStatus.failed) →
      seqGo exec false trigger newRouteAt (some k) inputAmount rest idx
          current acc false activeRoute
        = handleCancellation activeRoute
            (acc ++ runResults exec idx current (rest.take (k - idx)))
            inputAmount := by
  intro rest
  induction rest with
  | nil =>
    intro idx current acc activeRoute hle hlt _
    simp at hlt
    omega
  | cons seg rest' ih =>
    intro idx current acc activeRoute hle hlt hok
    by_cases hik : idx = k
    · subst hik
      rw [seqGo, if_pos (show cancelVisible (some idx) idx from le_rfl)]
      simp [runResults]
    · have hltk : idx < k := lt_of_le_of_ne hle hik
      have hcv : ¬ cancelVisible (some k) idx := by
        simp only [cancelVisible]
        omega
      rw [seqGo, if_neg hcv]
      simp only [Bool.false_and, Bool.if_false_left, if_neg]
      have htake : (seg :: rest').take (k - idx)
          = seg :: rest'.take (k - (idx + 1)) := by
        have h1 : k - idx = (k - (idx + 1)) + 1 := by omega
        rw [h1]
        rfl
      have hrr : runResults exec idx current ((seg :: rest').take (k - idx))
          = exec idx seg current
              :: runResults exec (idx + 1) (exec idx seg current).output_amount
                  (rest'.take (k - (idx + 1))) := by
        rw [htake]
        rfl
      have hnotfail : (exec idx seg current).status ≠ SegStatus.failed := by
        apply hok
        rw [hrr]
        exact List.mem_cons_self _ _
      rw [if_neg hnotfail]
      rw [ih (idx + 1) (exec idx seg current).output_amount
        (acc ++ [exec idx seg current]) activeRoute (by omega)
        (by simp at hlt ⊢; omega) ?_]
      · rw [hrr]
        simp
      · intro r hr
        apply hok
        rw [hrr]
        exact List.mem_cons_of_mem _ hr

/-- C6: cancelling a sequential execution at boundary `k` (after `k` of
`n > k` segments completed, none failed) yields status CANCELLED, total
fees equal to the sum over only the completed segments, final amount equal
to the last completed segment's output, and exactly the `k` completed
results reported — the never-executed remaining segments are absent.
AI rerouting is disabled here, pinning the completed prefix; the
cancellation path itself (`_handle_cancellation`) is independent of it. -/
theorem c6_cancellation_result (exec : Nat → RouteSegment → ℚ → SegResult)
    (trigger : Nat → Bool) (newRouteAt : Nat → Option (List RouteSegment))
    (route : List RouteSegment) (amount : ℚ) (k : Nat)
    (hk0 : 0 < k) (hklen : k < route.length)
    (hok : ∀ r ∈ runResults exec 0 amount (route.take k),
      r.status ≠ SegStatus.failed) :
    (runSequential exec false trigger newRouteAt (some k) route amount).status
        = ExecStatus.cancelled
    ∧ (runSequential exec false trigger newRouteAt (some k) route
        amount).total_fees
        = ((runResults exec 0 amount (route.take k)).map
            (fun r => r.fees_paid)).sum
    ∧ (runSequential exec false trigger newRouteAt (some k) route
        amount).segment_executions
        = runResults exec 0 amount (route.take k)
    ∧ (runSequential exec false trigger newRouteAt (some k) route
        amount).segment_executions.length = k
    ∧ ∃ last, (runResults exec 0 amount (route.take k)).getLast? = some last
        ∧ (runSequential exec false trigger newRouteAt (some k) route
            amount).final_amount = last.output_amount := by
  have hrun : runSequential exec false trigger newRouteAt (some k) route amount
      = handleCancellation route (runResults exec 0 amount (route.take k))
          amount := by
    have h := seqGo_cancel exec trigger newRouteAt amount k route 0 amount []
      route (Nat.zero_le k) (by simpa using hklen) (by simpa using hok)
    simpa [runSequential] using h
  have hlen : (runResults exec 0 amount (route.take k)).length = k := by
    rw [runResults_length]
    exact List.length_take_of_le (le_of_lt hklen)
  have hne : runResults exec 0 amount (route.take k) ≠ [] := by
    intro habs
    rw [habs] at hlen
    simp at hlen
    omega
  obtain ⟨last, hlast⟩ :=
    Option.isSome_iff_exists.mp (List.getLast?_isSome.mpr hne)
  refine ⟨by rw [hrun]; rfl, by rw [hrun]; rfl, by rw [hrun]; rfl,
    by rw [hrun]; simpa [handleCancellation] using hlen, last, hlast, ?_⟩
  rw [hrun]
  simp [handleCancellation, hlast]

/-- Constant-output executor used in concrete scenarios: always completes
with the given output and no fees. -/
def exConstExec (out : ℚ) : Nat → RouteSegment → ℚ → SegResult :=
  fun _ _ amt =>
    { status := SegStatus.completed, input_amount := amt,
      output_amount := out, fees_paid := 0 }

/-- An FX segment EUR → GBP. -/
def segEurGbp : RouteSegment :=
  { segment_type := SegmentType.fx, from_asset := "EUR", to_asset := "GBP" }

/-- An alternative EUR → GBP segment (different provider), used as the
freshly computed reroute target. -/
def segEurGbpAlt : RouteSegment :=
  { segment_type := SegmentType.fx, from_asset := "EUR", to_asset := "GBP",
    provider := some "alt" }

/-- Witness for C6: cancelling a 3-segment route at boundary 1 reports
exactly the single completed segment. -/
theorem c6_cancellation_result_witness :
    (runSequential (exConstExec 90) false (fun _ => false) (fun _ => none)
        (some 1) [exUsdEur, segEurGbp, segEurGbp] 100).status
        = ExecStatus.cancelled
    ∧ (runSequential (exConstExec 90) false (fun _ => false) (fun _ => none)
        (some 1) [exUsdEur, segEurGbp, segEurGbp] 100).segment_executions.length
        = 1
    ∧ ∃ last, (runResults (exConstExec 90) 0 100
          ([exUsdEur, segEurGbp, segEurGbp].take 1)).getLast? = some last
        ∧ (runSequential (exConstExec 90) false (fun _ => false)
            (fun _ => none) (some 1) [exUsdEur, segEurGbp, segEurGbp]
            100).final_amount = last.output_amount := by
  obtain ⟨h1, _, _, h4, h5⟩ :=
    c6_cancellation_result (exConstExec 90) (fun _ => false) (fun _ => none)
      [exUsdEur, segEurGbp, segEurGbp] 100 1 (by norm_num) (by norm_num)
      (by intro r hr; simp [runResults, exConstExec] at hr; subst hr; simp)
  exact ⟨h1, h4, h5⟩

/-- C5, evaluated at its failing input: route `[exUsdEur, segEurGbp]`, AI
rerouting on, trigger firing at index 1 with fresh route `[segEurGbpAlt]`.
The claim says execution continues from index 1 on the new route — i.e.
`segEurGbpAlt` is executed next and appears in the results.  The code
instead advances the frozen iterator: the REROUTING state set by
`_calculate_reroute` makes every remaining boundary skip, so after the
trigger no segment (old or new) is ever executed, and the run ends
COMPLETED with only segment 0's result, while reporting the new route. -/
theorem c5_reroute_code_bug :
    (runSequential (fun _ seg amt => fxExecute seg amt) true
        (fun idx => decide (idx = 1))
        (fun idx => if idx = 1 then some [segEurGbpAlt] else none) none
        [exUsdEur, segEurGbp] 1000).segment_executions
        = [fxExecute exUsdEur 1000]
    ∧ (runSequential (fun _ seg amt => fxExecute seg amt) true
        (fun idx => decide (idx = 1))
        (fun idx => if idx = 1 then some [segEurGbpAlt] else none) none
        [exUsdEur, segEurGbp] 1000).segment_executions.length = 1
    ∧ (runSequential (fun _ seg amt => fxExecute seg amt) true
        (fun idx => decide (idx = 1))
        (fun idx => if idx = 1 then some [segEurGbpAlt] else none) none
        [exUsdEur, segEurGbp] 1000).route = [segEurGbpAlt]
    ∧ (runSequential (fun _ seg amt => fxExecute seg amt) true
        (fun idx => decide (idx = 1))
        (fun idx => if idx = 1 then some [segEurGbpAlt] else none) none
        [exUsdEur, segEurGbp] 1000).status = ExecStatus.completed := by
  refine ⟨rfl, rfl, rfl, rfl⟩

/-- The loop of `AdvancedExecutionService._group_parallel_segments`:
an FX/CRYPTO segment joins the current group while it holds fewer than 3
items; any other segment (and an FX/CRYPTO one meeting a full group)
flushes the current group and starts a new one with itself; the trailing
group is flushed after the loop. -/
def groupGo : List (Nat × RouteSegment) → List (Nat × RouteSegment) →
    List (List (Nat × RouteSegment))
  | [], current => if current.isEmpty then [] else [current]
  | (idx, seg) :: rest, current =>
    if (seg.segment_type = SegmentType.fx
          ∨ seg.segment_type = SegmentType.crypto)
        ∧ current.length < 3 then
      groupGo rest (current ++ [(idx, seg)])
    else
      (if current.isEmpty then [] else [current]) ++ groupGo rest [(idx, seg)]

/-- `_group_parallel_segments` over the enumerated route. -/
def groupParallelSegments (route : List RouteSegment) :
    List (List (Nat × RouteSegment)) :=
  groupGo route.enum []

/-- A bridge segment USDC ethereum → USDC polygon. -/
def exBridgeSeg : RouteSegment :=
  { segment_type := SegmentType.bridge, from_asset := "USDC",
    to_asset := "USDC", from_network := some "ethereum",
    to_network := some "polygon" }

/-- C8 counterexample: a BRIDGE segment does not run alone — the FX
segment following it joins its group. -/
theorem c8_counterexample :
    groupParallelSegments [exBridgeSeg, exUsdEur]
      = [[(0, exBridgeSeg), (1, exUsdEur)]] := by
  decide

lemma groupGo_spec :
    ∀ (items current : List (Nat × RouteSegment)),
      current.length ≤ 3 →
      (∀ x ∈ current.tail, x.2.segment_type = SegmentType.fx
        ∨ x.2.segment_type = SegmentType.crypto) →
      (groupGo items current).flatten = current ++ items.map (fun x => x)
      ∧ ∀ grp ∈ groupGo items current, grp ≠ [] ∧ grp.length ≤ 3
          ∧ ∀ x ∈ grp.tail, x.2.segment_type = SegmentType.fx
              ∨ x.2.segment_type = SegmentType.crypto := by
  intro items
  induction items with
  | nil =>
    intro current hlen htail
    constructor
    · cases current with
      | nil => simp [groupGo]
      | cons c cs => simp [groupGo]
    · intro grp hgrp
      cases current with
      | nil => simp [groupGo] at hgrp
      | cons c cs =>
        simp [groupGo] at hgrp
        subst hgrp
        exact ⟨by simp, hlen, htail⟩
  | cons p rest ih =>
    obtain ⟨idx, seg⟩ := p
    intro current hlen htail
    by_cases hcond : (seg.segment_type = SegmentType.fx
        ∨ seg.segment_type = SegmentType.crypto) ∧ current.length < 3
    · rw [groupGo, if_pos hcond]
      have htail' : ∀ x ∈ (current ++ [(idx, seg)]).tail,
          x.2.segment_type = SegmentType.fx
          ∨ x.2.segment_type = SegmentType.crypto := by
        cases current with
        | nil =>
          intro x hx
          simp at hx
        | cons c cs =>
          intro x hx
          simp only [List.cons_append, List.tail_cons] at hx
          rcases List.mem_append.mp hx with h | h
          · exact htail x (by simpa using h)
          · rw [List.mem_singleton.mp h]
            exact hcond.1
      obtain ⟨hflat, hgrps⟩ := ih (current ++ [(idx, seg)])
        (by simp; omega) htail'
      refine ⟨?_, hgrps⟩
      rw [hflat]
      simp
    · rw [groupGo, if_neg hcond]
      obtain ⟨hflat, hgrps⟩ := ih [(idx, seg)] (by simp) (by simp)
      constructor
      · rw [List.flatten_append, hflat]
        cases current with
        | nil => simp [groupGo]
        | cons c cs => simp [groupGo]
      · intro grp hgrp
        rcases List.mem_append.mp hgrp with h | h
        · cases current with
          | nil => simp at h
          | cons c cs =>
            simp at h
            subst h
            exact ⟨by simp, hlen, htail⟩
        · exact hgrps grp h

/-- C8 (amended): `_group_parallel_segments` partitions the route, in
order, into non-empty runs of at most 3 segments in which every segment
after the first is FX/CRYPTO.  A non-FX/CRYPTO segment always starts a new
run, but does not always run alone: up to two following FX/CRYPTO segments
join its run (`c8_counterexample`). -/
theorem c8_grouping (route : List RouteSegment) :
    (groupParallelSegments route).flatten = route.enum
    ∧ ∀ grp ∈ groupParallelSegments route, grp ≠ [] ∧ grp.length ≤ 3
        ∧ ∀ x ∈ grp.tail, x.2.segment_type = SegmentType.fx
            ∨ x.2.segment_type = SegmentType.crypto := by
  obtain ⟨hflat, hgrps⟩ := groupGo_spec route.enum [] (by simp) (by simp)
  refine ⟨?_, hgrps⟩
  simpa using hflat

/-- The amount-merging fold of `_execute_parallel`: for each result of the
group, `if output > current: current = output`. -/
def parallelCarry (current : ℚ) (rs : List SegResult) : ℚ :=
  rs.foldl (fun c r => if c < r.output_amount then r.output_amount else c)
    current

/-- The group loop of `AdvancedExecutionService._execute_parallel`: each
group's segments all receive the amount current at dispatch; after the
group joins, the amount becomes `parallelCarry` of the group's outputs.
The parallel loop checks no cancellation or pause, and `exec` stands for
`_execute_segment` (a raised exception would surface as a FAILED result,
so `exec` is total). -/
def parGo (exec : Nat → RouteSegment → ℚ → SegResult) (inputAmount : ℚ)
    (route : List RouteSegment) :
    List (List (Nat × RouteSegment)) → ℚ → List SegResult → ExecResponse
  | [], current, acc => buildResponse route acc inputAmount current false
  | g :: gs, current, acc =>
    let rs := g.map (fun p => exec p.1 p.2 current)
    parGo exec inputAmount route gs (parallelCarry current rs) (acc ++ rs)

/-- `_execute_parallel` from the initial state. -/
def runParallel (exec : Nat → RouteSegment → ℚ → SegResult)
    (route : List RouteSegment) (amount : ℚ) : ExecResponse :=
  parGo exec amount route (groupParallelSegments route) amount []

/-- C9 counterexample: with input 100 and a first run whose only output is
90, the amount carried into the next run is 100 (the incoming amount), not
the run's maximum output 90 as claimed — the bridge segment of run 2 is
dispatched with input 100. -/
theorem c9_counterexample :
    ((runParallel (exConstExec 90) [exUsdEur, exBridgeSeg]
        100).segment_executions.get? 1).map (fun r => r.input_amount)
      = some 100
    ∧ parallelCarry 100
        [exConstExec 90 0 exUsdEur 100] = 100
    ∧ (exConstExec 90 0 exUsdEur 100).output_amount = 90
    ∧ (100 : ℚ) ≠ 90 := by
  refine ⟨?_, ?_, ?_, ?_⟩
  · norm_num [runParallel, parGo, groupParallelSegments, groupGo,
      exConstExec, buildResponse, parallelCarry, exUsdEur, exBridgeSeg,
      List.enum, List.enumFrom, List.get?]
  · norm_num [parallelCarry, exConstExec]
  · norm_num [exConstExec]
  · norm_num

lemma le_parallelCarry (rs : List SegResult) :
    ∀ current : ℚ, current ≤ parallelCarry current rs := by
  induction rs with
  | nil => intro current; exact le_rfl
  | cons r rest ih =>
    intro current
    refine le_trans ?_ (ih (if current < r.output_amount then
      r.output_amount else current))
    split_ifs with h
    · exact le_of_lt h
    · exact le_rfl

/-- C9 (amended): after a run joins, the carried amount is the maximum of
the *incoming* amount and the run's outputs — it never decreases below the
incoming amount, every output is bounded by it, and it is attained by the
incoming amount or by some output; `parGo` advances each run with exactly
this `parallelCarry` fold (so the carried amount equals the run's maximum
output only when some output reaches the incoming amount). -/
theorem c9_parallel_carry (current : ℚ) (rs : List SegResult) :
    current ≤ parallelCarry current rs
    ∧ (∀ r ∈ rs, r.output_amount ≤ parallelCarry current rs)
    ∧ (parallelCarry current rs = current
        ∨ ∃ r ∈ rs, parallelCarry current rs = r.output_amount)
    ∧ (∀ (exec : Nat → RouteSegment → ℚ → SegResult) (inputAmount : ℚ)
        (route : List RouteSegment) (g : List (Nat × RouteSegment))
        (gs : List (List (Nat × RouteSegment))) (acc : List SegResult),
        parGo exec inputAmount route (g :: gs) current acc
          = parGo exec inputAmount route gs
              (parallelCarry current (g.map (fun p => exec p.1 p.2 current)))
              (acc ++ g.map (fun p => exec p.1 p.2 current))) := by
  refine ⟨le_parallelCarry rs current, ?_, ?_,
    fun exec inputAmount route g gs acc => rfl⟩
  · induction rs generalizing current with
    | nil => intro r hr; simp at hr
    | cons r rest ih =>
      intro x hx
      rcases List.mem_cons.mp hx with h | h
      · subst h
        refine le_trans ?_ (le_parallelCarry rest
          (if current < x.output_amount then x.output_amount else current))
        split_ifs with h2
        · exact le_rfl
        · exact not_lt.mp h2
      · exact ih (if current < r.output_amount then r.output_amount
          else current) x h
  · induction rs generalizing current with
    | nil => exact Or.inl rfl
    | cons r rest ih =>
      rcases ih (if current < r.output_amount then r.output_amount
          else current) with h | ⟨x, hx, hxe⟩
      · by_cases h2 : current < r.output_amount
        · right
          refine ⟨r, List.mem_cons_self _ _, ?_⟩
          rw [show parallelCarry current (r :: rest)
            = parallelCarry (if current < r.output_amount then
                r.output_amount else current) rest from rfl, h, if_pos h2]
        · left
          rw [show parallelCarry current (r :: rest)
            = parallelCarry (if current < r.output_amount then
                r.output_amount else current) rest from rfl, h, if_neg h2]
      · right
        exact ⟨x, List.mem_cons_of_mem _ hx, by
          rw [show parallelCarry current (r :: rest)
            = parallelCarry (if current < r.output_amount then
                r.output_amount else current) rest from rfl, hxe]⟩

end Pontus
